import Mathlib

/-!
Verification of the path-based BMC engine (`lib/seahorn/PathBasedBmc.cc`).

The development shallowly embeds the engine's data model and algorithms:
* the expression kernel fragment the engine inspects (`Expr`),
* the Boolean abstraction pipeline (`preNNF`, `nnf`, `ba`, `bool_abstraction`),
* critical-edge classification and active-literal construction of the AI refiner,
* the blocking-clause construction and the body of one iteration of `solve()`,
* the naive and binary-search minimal-unsat-core strategies.

The SMT backends are modelled as oracles: a function `sat : List Expr → Bool`
standing for `reset; assert each; solve` on the listed formulas.
-/

namespace PathBmc

/-- The fragment of the hash-consed expression language that
`PathBasedBmc.cc` inspects.  `boolConst n` is a named Boolean constant
(`bind::isBoolConst`), `tupleConst a b` is a Boolean constant whose name is
the ordered pair `mk<TUPLE>(a,b)` (as built by `bind::boolConst(mk<TUPLE>(src,dst))`),
and `atom n` stands for any other Boolean-valued leaf the engine does not
look into (arithmetic, bit-vector or array predicates, equalities between
non-Boolean terms, ...). -/
inductive Expr : Type where
  | tru : Expr
  | fls : Expr
  | boolConst : Nat → Expr
  | tupleConst : Expr → Expr → Expr
  | atom : Nat → Expr
  | neg : Expr → Expr
  | conj : Expr → Expr → Expr
  | disj : Expr → Expr → Expr
  | impl : Expr → Expr → Expr
  | iff2 : Expr → Expr → Expr
  | xor2 : Expr → Expr → Expr
  | ite3 : Expr → Expr → Expr → Expr
  | eq : Expr → Expr → Expr
deriving DecidableEq, Repr

namespace Expr

/-- Truth value of an expression under an assignment `σ` to the leaves
(`boolConst`, `tupleConst`, `atom`).  `σ` is consulted only on leaves. -/
def eval (σ : Expr → Bool) : Expr → Bool
  | tru => true
  | fls => false
  | boolConst n => σ (boolConst n)
  | tupleConst a b => σ (tupleConst a b)
  | atom n => σ (atom n)
  | neg e => !(eval σ e)
  | conj a b => eval σ a && eval σ b
  | disj a b => eval σ a || eval σ b
  | impl a b => !(eval σ a) || eval σ b
  | iff2 a b => eval σ a == eval σ b
  | xor2 a b => eval σ a != eval σ b
  | ite3 c a b => if eval σ c then eval σ a else eval σ b
  | eq a b => eval σ a == eval σ b

/-- `isOpX<TRUE>`. -/
def isTrueE : Expr → Bool
  | tru => true
  | _ => false

/-- Whether an `XOR` node occurs anywhere in the expression. -/
def hasXOR : Expr → Bool
  | xor2 _ _ => true
  | neg e => hasXOR e
  | conj a b => hasXOR a || hasXOR b
  | disj a b => hasXOR a || hasXOR b
  | impl a b => hasXOR a || hasXOR b
  | iff2 a b => hasXOR a || hasXOR b
  | eq a b => hasXOR a || hasXOR b
  | ite3 c a b => hasXOR c || hasXOR a || hasXOR b
  | _ => false

end Expr

open Expr

/-- `PreNNF` (`PathBasedBmc.cc:92-123`) applied bottom-up over the DAG by
`dagVisit(BS<PreNNF>(..))` (`pre_nnf`, line 180): children are rewritten
first, then `IMPL`, `ITE` and `IFF` at the node are replaced by their
AND/OR/NEG forms.  An `XOR` node hits `assert(false && "TODO")`, i.e. the
engine aborts: this is modelled by returning `none`.  The connective
builders `op::boolop::lor/land/lneg` of the external kernel are modelled
from the spec as the plain constructors (spec 4.1 writes
`IMPL(a,b) → OR(NEG(a),b)` etc.). -/
def preNNF : Expr → Option Expr
  | .tru => some .tru
  | .fls => some .fls
  | .boolConst n => some (.boolConst n)
  | .tupleConst a b => some (.tupleConst a b)
  | .atom n => some (.atom n)
  | .neg e =>
    match preNNF e with
    | some e' => some (.neg e')
    | none => none
  | .conj a b =>
    match preNNF a, preNNF b with
    | some a', some b' => some (.conj a' b')
    | _, _ => none
  | .disj a b =>
    match preNNF a, preNNF b with
    | some a', some b' => some (.disj a' b')
    | _, _ => none
  | .eq a b =>
    match preNNF a, preNNF b with
    | some a', some b' => some (.eq a' b')
    | _, _ => none
  | .impl a b =>
    match preNNF a, preNNF b with
    | some a', some b' => some (.disj (.neg a') b')
    | _, _ => none
  | .iff2 a b =>
    match preNNF a, preNNF b with
    | some a', some b' => some (.conj (.disj (.neg a') b') (.disj (.neg b') a'))
    | _, _ => none
  | .ite3 c a b =>
    match preNNF c, preNNF a, preNNF b with
    | some c', some a', some b' => some (.disj (.conj c' a') (.conj (.neg c') b'))
    | _, _, _ => none
  | .xor2 _ _ => none

mutual

/-- Modelled from the spec: `op::boolop::nnf` lives in the external
expression kernel; spec 4.1 describes it as the standard negation normal
form, pushing negations inward (cancelling double negation, De Morgan over
AND/OR) until they rest on leaves. -/
def nnf : Expr → Expr
  | .neg e => nnfNeg e
  | .conj a b => .conj (nnf a) (nnf b)
  | .disj a b => .disj (nnf a) (nnf b)
  | .eq a b => .eq (nnf a) (nnf b)
  | e => e

/-- Modelled from the spec: negation-normal form of the negation of the
argument (the negative polarity of `nnf`). -/
def nnfNeg : Expr → Expr
  | .neg e => nnf e
  | .conj a b => .disj (nnfNeg a) (nnfNeg b)
  | .disj a b => .conj (nnfNeg a) (nnfNeg b)
  | e => .neg e

end

/-- `BA::is_pos_bool_lit` (line 128): `true`, `false`, or a Boolean
constant (a `tupleConst` is a Boolean constant with a tuple name). -/
def isPosBoolLit : Expr → Bool
  | .tru => true
  | .fls => true
  | .boolConst _ => true
  | .tupleConst _ _ => true
  | _ => false

/-- `BA::is_neg_bool_lit` (line 134). -/
def isNegBoolLit : Expr → Bool
  | .neg e => isPosBoolLit e
  | _ => false

/-- `BA::is_bool_lit` (line 138). -/
def isBoolLit (e : Expr) : Bool :=
  isPosBoolLit e || isNegBoolLit e

/-- `BA::operator()` (lines 152-177) run by `dagVisit` on an NNF input:
positive Boolean literals are kept (`skipKids`), a negation is kept when
it negates a positive Boolean literal and otherwise becomes `true`
(`changeTo(trueE)`), `AND`/`OR` recurse, an `EQ` recurses only when both
sides are Boolean literals, and every other node becomes `true`. -/
def ba : Expr → Expr
  | .tru => .tru
  | .fls => .fls
  | .boolConst n => .boolConst n
  | .tupleConst a b => .tupleConst a b
  | .neg e => if isPosBoolLit e then .neg (ba e) else .tru
  | .conj a b => .conj (ba a) (ba b)
  | .disj a b => .disj (ba a) (ba b)
  | .eq a b => if isBoolLit a && isBoolLit b then .eq (ba a) (ba b) else .tru
  | _ => .tru

/-- `bool_abstraction(Expr)` (lines 185-190): pre-NNF, NNF, then the
skeleton extraction `BA`.  `none` when the pre-NNF pass aborted on `XOR`. -/
def bool_abstraction (e : Expr) : Option Expr :=
  match preNNF e with
  | some e' => some (ba (nnf e'))
  | none => none

/-- The loop of `bool_abstraction(ExprVector&, ExprVector&)`
(lines 193-196): abstract each clause of `side` in order (an abort on any
clause aborts the whole run). -/
def abstractAll : List Expr → Option (List Expr)
  | [] => some []
  | e :: rest =>
    match bool_abstraction e, abstractAll rest with
    | some y, some l => some (y :: l)
    | _, _ => none

/-- `bool_abstraction(ExprVector&, ExprVector&)` (lines 192-199): abstract
each clause of `side` in order, then erase the clauses that are literally
`true`. -/
def bool_abstraction_list (side : List Expr) : Option (List Expr) :=
  match abstractAll side with
  | some l => some (l.filter (fun e => !isTrueE e))
  | none => none

/-- The shape of `BA`'s output (spec 4.1: only Boolean literals, `AND`,
`OR`, `NEG` on positive literals, and equalities between Boolean
literals). -/
def isSkeleton : Expr → Bool
  | .neg e => isPosBoolLit e
  | .conj a b => isSkeleton a && isSkeleton b
  | .disj a b => isSkeleton a && isSkeleton b
  | .eq a b => isBoolLit a && isBoolLit b
  | e => isPosBoolLit e

/-- The CFG view the engine needs: successor and predecessor lists of a
basic block (blocks are named by `Nat`). -/
structure CFG : Type where
  succs : Nat → List Nat
  preds : Nat → List Nat

/-- `isCriticalEdge` (lines 70-89): the edge is critical when `src` has a
successor other than `dst` and `dst` has a predecessor other than `src`
(both scans stop at the first witness, i.e. `List.any`). -/
def isCriticalEdge (g : CFG) (src dst : Nat) : Bool :=
  (g.succs src).any (fun s => s != dst) && (g.preds dst).any (fun p => p != src)

/-- The edge predicate built at lines 535-540 and 577-582: a fresh Boolean
constant named by the tuple for a critical edge, the conjunction
`bp(src) ∧ bp(dst)` otherwise.  `bp` maps a block to its control
predicate (`sem().symb`). -/
def edgeExpr (g : CFG) (bp : Nat → Expr) (src dst : Nat) : Expr :=
  if isCriticalEdge g src dst then Expr.tupleConst (bp src) (bp dst)
  else Expr.conj (bp src) (bp dst)

/-- The classification of a relevant Crab statement that
`path_encoding_and_solve_with_ai` performs (lines 516-595).  `interior`
covers `is_bin_op`, `is_int_cast`, `is_select`, `is_bool_bin_op`,
`is_bool_assign_cst` and the array statements; `assumeE` is an assume
whose parent is the CFG edge `(src,dst)`; `assumeB` a Boolean assume
inside a block; `assignPhi` an (Boolean) assignment whose left-hand side
is a PHI node, with owning block `srcBB` and PHI parent `dstBB`;
`assignPlain` an assignment that is not from a PHI node; `unknownStmt`
any unrecognized statement kind. -/
inductive Stmt : Type where
  | interior : Nat → Stmt
  | assumeE : Nat → Nat → Stmt
  | assumeB : Nat → Stmt
  | assignPhi : Nat → Nat → Stmt
  | assignPlain : Nat → Stmt
  | unknownStmt : Stmt
deriving DecidableEq, Repr

/-- The active Boolean literals one relevant statement contributes
(lines 516-595).  `none` models the bail-out `return true` at line 594
(pretend feasible, let the SMT refiner take over); note that a non-PHI
assignment falls through to this bail-out as well. -/
def stmtActiveLits (g : CFG) (bp : Nat → Expr) : Stmt → Option (List Expr)
  | .interior bb => some [bp bb]
  | .assumeE src dst => some [bp src, edgeExpr g bp src dst]
  | .assumeB bb => some [bp bb]
  | .assignPhi srcBB dstBB => some [bp srcBB, edgeExpr g bp srcBB dstBB]
  | .assignPlain _ => none
  | .unknownStmt => none

/-- The tri-valued result of a solver call (`boost::tribool`). -/
inductive Outcome : Type where
  | osat : Outcome
  | ounsat : Outcome
  | ounknown : Outcome
deriving DecidableEq, Repr

/-- The loop state of `PathBasedBmcEngine::solve`: the assertions of the
primary solver `m_smt_solver` in assertion order, the blocking-clause set
`m_blocking_clauses`, and the iteration counter `iters`. -/
structure LoopState : Type where
  asserted : List Expr
  blocking : Finset Expr
  iters : Nat
deriving DecidableEq

/-- Modelled from the spec: `op::boolop::land` over a vector lives in the
external kernel; spec 4.7 writes the conjunction `⋀ A` (a single literal
stands for itself). -/
def landList : List Expr → Expr
  | [] => Expr.tru
  | [x] => x
  | x :: y :: xs => Expr.conj x (landList (y :: xs))

/-- The blocking clause of `add_blocking_clauses` (lines 924-930):
`false` when the active set is empty, `¬(⋀ lits)` otherwise (`lneg/land`
modelled from the spec as plain negation/conjunction). -/
def blockingClause (lits : List Expr) : Expr :=
  if lits.isEmpty then Expr.fls else Expr.neg (landList lits)

/-- `PathBasedBmcEngine::add_blocking_clauses` (lines 921-936): build the
blocking clause from the active literals, assert it into the primary
solver, insert it into the blocking set; the returned flag is
`std::set::insert`'s "was new" result. -/
def add_blocking_clauses (s : LoopState) (activeLits : List Expr) : LoopState × Bool :=
  let bc := blockingClause activeLits
  (⟨s.asserted ++ [bc], insert bc s.blocking, s.iters⟩,
   if bc ∈ s.blocking then false else true)

/-- Result of one iteration of the main loop of `solve` (lines 861-907):
either the loop terminates with an engine result, or it continues with an
updated state. -/
inductive StepRes : Type where
  | terminated : Outcome → LoopState → StepRes
  | continued : LoopState → StepRes
deriving DecidableEq

/-- One iteration of the main loop of `PathBasedBmcEngine::solve`
(lines 861-907).  The external solvers and refiners are oracles:
`primary` is `m_smt_solver.solve()` as a function of the asserted
formulas; `ai` is `path_encoding_and_solve_with_ai` (the Bool is its
return value, `false` meaning Crab proved the path infeasible, paired
with the active literals it computed); `smtRefine` is
`path_encoding_and_solve_with_smt` paired with its active literals; both
refiners are keyed by the iteration counter.  On a primary `UNSAT` or
`UNKNOWN` the loop exits returning `m_result`; on `SAT` the refiners run
and an infeasible path leads to `add_blocking_clauses`, where a duplicate
blocking clause terminates the engine with `UNKNOWN` ("same blocking
clause again"). -/
def solveStep (useCrab : Bool) (primary : List Expr → Outcome)
    (ai : Nat → Bool × List Expr) (smtRefine : Nat → Outcome × List Expr)
    (s : LoopState) : StepRes :=
  match primary s.asserted with
  | .ounsat => .terminated .ounsat s
  | .ounknown => .terminated .ounknown s
  | .osat =>
    let s1 : LoopState := { s with iters := s.iters + 1 }
    let aiRes := if useCrab then ai s1.iters else (true, [])
    if aiRes.1 = false then
      match add_blocking_clauses s1 aiRes.2 with
      | (s2, true) => .continued s2
      | (s2, false) => .terminated .ounknown s2
    else
      match smtRefine s1.iters with
      | (.osat, _) => .terminated .osat s1
      | (.ounknown, _) => .terminated .ounknown s1
      | (.ounsat, lits) =>
        match add_blocking_clauses s1 lits with
        | (s2, true) => .continued s2
        | (s2, false) => .terminated .ounknown s2

/-- The loop of `naive_muc::run` (lines 257-273) over the solver oracle
`sat` (a call `check(it, et, assumptions)` is `sat (assumptions ++ range)`,
since the solver is reset and re-asserted each call).  At index `i` the
element `out[i]` is swapped with the back, the vector without its last
element is checked; on SAT the element is restored and `i` advances, on
UNSAT the back is popped. -/
def naiveLoop (sat : List Expr → Bool) (assumptions : List Expr)
    (out : List Expr) (i : Nat) : List Expr :=
  if h : i < out.length then
    let b := out.getLast (List.ne_nil_of_length_pos (Nat.lt_of_le_of_lt (Nat.zero_le i) h))
    let tested := (out.set i b).dropLast
    if sat (assumptions ++ tested) then
      -- SAT: `out[i++] = saved` restores the original vector
      naiveLoop sat assumptions out (i + 1)
    else
      -- UNSAT: `out.pop_back()` leaves exactly the tested vector
      naiveLoop sat assumptions tested i
  else out
termination_by 2 * out.length - i
decreasing_by
  · omega
  · simp only [List.length_dropLast, List.length_set]
    omega

/-- `naive_muc::run(f, assumptions, out)` (lines 257-273) called with a
fresh `out` (as all call sites do): append `f` and run the loop from
index 0. -/
def naive_muc_run (sat : List Expr → Bool) (f assumptions : List Expr) : List Expr :=
  naiveLoop sat assumptions f 0

/-- The binary-search threshold (line 296). -/
def threshold : Nat := 10

/-- `binary_search_muc::run_with_assumptions` (lines 313-372): below the
threshold delegate to the naive strategy (size 0 adds nothing, size 1 is
its own core); otherwise split in half, recurse into an unsatisfiable
half if there is one, and else minimize `A` assuming `B`, then minimize
`B` assuming the accumulated core.  The computed core is appended to
`core`. -/
def binRun (sat : List Expr → Bool) (f assumptions core : List Expr) : List Expr :=
  let size := f.length
  if size ≤ threshold then
    if size = 0 then core
    else if size = 1 then core ++ f
    else core ++ naive_muc_run sat f assumptions
  else
    let A := f.take (size / 2)
    let B := f.drop (size / 2)
    if sat (assumptions ++ A) = false then
      binRun sat A assumptions core
    else if sat (assumptions ++ B) = false then
      binRun sat B assumptions core
    else
      let core1 := binRun sat A (assumptions ++ B) core
      binRun sat B (assumptions ++ core1) core1
termination_by f.length
decreasing_by
  all_goals simp only [List.length_take, List.length_drop, threshold] at *
  all_goals omega

/-- `binary_search_muc::run` (lines 377-380): empty assumptions and a
fresh output vector. -/
def binary_search_muc_run (sat : List Expr → Bool) (f : List Expr) : List Expr :=
  binRun sat f [] []

/-- A concrete deciding solver over formulas built from the Boolean
constants `0` and `1`: satisfiability by exhausting the four
assignments.  Used to run the MUC strategies on concrete inputs. -/
def satBC01 (l : List Expr) : Bool :=
  [false, true].any fun v0 => [false, true].any fun v1 =>
    l.all fun e => e.eval (fun x =>
      match x with
      | .boolConst 0 => v0
      | .boolConst 1 => v1
      | _ => false)

/-- A small concrete CFG used to exercise the edge-predicate theorems:
`0 → 1`, `0 → 2`, `3 → 1`, so the edge `(0,1)` is critical. -/
def cfgW : CFG :=
  ⟨fun n => if n = 0 then [1, 2] else [],
   fun n => if n = 1 then [0, 3] else []⟩

/-- A concrete self-contradictory clause over `boolConst 0`, used to run
the MUC strategies on a concrete unsatisfiable input. -/
def clauseW : Expr :=
  Expr.conj (Expr.boolConst 0) (Expr.neg (Expr.boolConst 0))

/-! ### Lemmas about the Boolean abstraction pipeline -/

theorem preNNF_eval (σ : Expr → Bool) :
    ∀ e e' : Expr, preNNF e = some e' → e'.eval σ = e.eval σ := by
  intro e
  induction e with
  | tru => intro e' h; simp only [preNNF, Option.some.injEq] at h; subst h; rfl
  | fls => intro e' h; simp only [preNNF, Option.some.injEq] at h; subst h; rfl
  | boolConst n => intro e' h; simp only [preNNF, Option.some.injEq] at h; subst h; rfl
  | tupleConst a b => intro e' h; simp only [preNNF, Option.some.injEq] at h; subst h; rfl
  | atom n => intro e' h; simp only [preNNF, Option.some.injEq] at h; subst h; rfl
  | neg a ih =>
    intro e' h
    cases ha : preNNF a with
    | none => simp [preNNF, ha] at h
    | some a' =>
      simp only [preNNF, ha, Option.some.injEq] at h
      subst h
      simp [eval, ih a' ha]
  | conj a b iha ihb =>
    intro e' h
    cases ha : preNNF a with
    | none => simp [preNNF, ha] at h
    | some a' =>
      cases hb : preNNF b with
      | none => simp [preNNF, ha, hb] at h
      | some b' =>
        simp only [preNNF, ha, hb, Option.some.injEq] at h
        subst h
        simp [eval, iha a' ha, ihb b' hb]
  | disj a b iha ihb =>
    intro e' h
    cases ha : preNNF a with
    | none => simp [preNNF, ha] at h
    | some a' =>
      cases hb : preNNF b with
      | none => simp [preNNF, ha, hb] at h
      | some b' =>
        simp only [preNNF, ha, hb, Option.some.injEq] at h
        subst h
        simp [eval, iha a' ha, ihb b' hb]
  | impl a b iha ihb =>
    intro e' h
    cases ha : preNNF a with
    | none => simp [preNNF, ha] at h
    | some a' =>
      cases hb : preNNF b with
      | none => simp [preNNF, ha, hb] at h
      | some b' =>
        simp only [preNNF, ha, hb, Option.some.injEq] at h
        subst h
        simp [eval, iha a' ha, ihb b' hb]
  | iff2 a b iha ihb =>
    intro e' h
    cases ha : preNNF a with
    | none => simp [preNNF, ha] at h
    | some a' =>
      cases hb : preNNF b with
      | none => simp [preNNF, ha, hb] at h
      | some b' =>
        simp only [preNNF, ha, hb, Option.some.injEq] at h
        subst h
        simp only [eval, iha a' ha, ihb b' hb]
        cases a.eval σ <;> cases b.eval σ <;> rfl
  | xor2 a b iha ihb =>
    intro e' h
    simp [preNNF] at h
  | ite3 c a b ihc iha ihb =>
    intro e' h
    cases hc : preNNF c with
    | none => simp [preNNF, hc] at h
    | some c' =>
      cases ha : preNNF a with
      | none => simp [preNNF, hc, ha] at h
      | some a' =>
        cases hb : preNNF b with
        | none => simp [preNNF, hc, ha, hb] at h
        | some b' =>
          simp only [preNNF, hc, ha, hb, Option.some.injEq] at h
          subst h
          simp only [eval, ihc c' hc, iha a' ha, ihb b' hb]
          cases c.eval σ <;> simp
  | eq a b iha ihb =>
    intro e' h
    cases ha : preNNF a with
    | none => simp [preNNF, ha] at h
    | some a' =>
      cases hb : preNNF b with
      | none => simp [preNNF, ha, hb] at h
      | some b' =>
        simp only [preNNF, ha, hb, Option.some.injEq] at h
        subst h
        simp [eval, iha a' ha, ihb b' hb]

theorem preNNF_isSome :
    ∀ e : Expr, e.hasXOR = false → ∃ e', preNNF e = some e' := by
  intro e
  induction e with
  | tru => intro _; exact ⟨_, rfl⟩
  | fls => intro _; exact ⟨_, rfl⟩
  | boolConst n => intro _; exact ⟨_, rfl⟩
  | tupleConst a b => intro _; exact ⟨_, rfl⟩
  | atom n => intro _; exact ⟨_, rfl⟩
  | neg a ih =>
    intro h
    simp only [hasXOR] at h
    obtain ⟨a', ha⟩ := ih h
    exact ⟨.neg a', by simp [preNNF, ha]⟩
  | conj a b iha ihb =>
    intro h
    simp only [hasXOR, Bool.or_eq_false_iff] at h
    obtain ⟨a', ha⟩ := iha h.1
    obtain ⟨b', hb⟩ := ihb h.2
    exact ⟨.conj a' b', by simp [preNNF, ha, hb]⟩
  | disj a b iha ihb =>
    intro h
    simp only [hasXOR, Bool.or_eq_false_iff] at h
    obtain ⟨a', ha⟩ := iha h.1
    obtain ⟨b', hb⟩ := ihb h.2
    exact ⟨.disj a' b', by simp [preNNF, ha, hb]⟩
  | impl a b iha ihb =>
    intro h
    simp only [hasXOR, Bool.or_eq_false_iff] at h
    obtain ⟨a', ha⟩ := iha h.1
    obtain ⟨b', hb⟩ := ihb h.2
    exact ⟨.disj (.neg a') b', by simp [preNNF, ha, hb]⟩
  | iff2 a b iha ihb =>
    intro h
    simp only [hasXOR, Bool.or_eq_false_iff] at h
    obtain ⟨a', ha⟩ := iha h.1
    obtain ⟨b', hb⟩ := ihb h.2
    exact ⟨.conj (.disj (.neg a') b') (.disj (.neg b') a'), by simp [preNNF, ha, hb]⟩
  | xor2 a b iha ihb =>
    intro h
    simp [hasXOR] at h
  | ite3 c a b ihc iha ihb =>
    intro h
    simp only [hasXOR, Bool.or_eq_false_iff] at h
    obtain ⟨c', hc⟩ := ihc h.1.1
    obtain ⟨a', ha⟩ := iha h.1.2
    obtain ⟨b', hb⟩ := ihb h.2
    exact ⟨.disj (.conj c' a') (.conj (.neg c') b'), by simp [preNNF, hc, ha, hb]⟩
  | eq a b iha ihb =>
    intro h
    simp only [hasXOR, Bool.or_eq_false_iff] at h
    obtain ⟨a', ha⟩ := iha h.1
    obtain ⟨b', hb⟩ := ihb h.2
    exact ⟨.eq a' b', by simp [preNNF, ha, hb]⟩

theorem hasXOR_preNNF_none :
    ∀ e : Expr, e.hasXOR = true → preNNF e = none := by
  intro e
  induction e with
  | tru => intro h; simp [hasXOR] at h
  | fls => intro h; simp [hasXOR] at h
  | boolConst n => intro h; simp [hasXOR] at h
  | tupleConst a b => intro h; simp [hasXOR] at h
  | atom n => intro h; simp [hasXOR] at h
  | neg a ih =>
    intro h
    simp only [hasXOR] at h
    simp [preNNF, ih h]
  | conj a b iha ihb =>
    intro h
    simp only [hasXOR, Bool.or_eq_true_iff] at h
    rcases h with h | h
    · simp [preNNF, iha h]
    · cases preNNF a <;> simp [preNNF, ihb h]
  | disj a b iha ihb =>
    intro h
    simp only [hasXOR, Bool.or_eq_true_iff] at h
    rcases h with h | h
    · simp [preNNF, iha h]
    · cases preNNF a <;> simp [preNNF, ihb h]
  | impl a b iha ihb =>
    intro h
    simp only [hasXOR, Bool.or_eq_true_iff] at h
    rcases h with h | h
    · simp [preNNF, iha h]
    · cases preNNF a <;> simp [preNNF, ihb h]
  | iff2 a b iha ihb =>
    intro h
    simp only [hasXOR, Bool.or_eq_true_iff] at h
    rcases h with h | h
    · simp [preNNF, iha h]
    · cases preNNF a <;> simp [preNNF, ihb h]
  | xor2 a b iha ihb => intro _; rfl
  | ite3 c a b ihc iha ihb =>
    intro h
    simp only [hasXOR, Bool.or_eq_true_iff] at h
    rcases h with (h | h) | h
    · simp [preNNF, ihc h]
    · cases preNNF c <;> simp [preNNF, iha h]
    · cases preNNF c <;> cases preNNF a <;> simp [preNNF, ihb h]
  | eq a b iha ihb =>
    intro h
    simp only [hasXOR, Bool.or_eq_true_iff] at h
    rcases h with h | h
    · simp [preNNF, iha h]
    · cases preNNF a <;> simp [preNNF, ihb h]

theorem nnf_eval (σ : Expr → Bool) :
    ∀ e : Expr, (nnf e).eval σ = e.eval σ ∧ (nnfNeg e).eval σ = !(e.eval σ) := by
  intro e
  induction e with
  | neg a ih =>
    constructor
    · show (nnfNeg a).eval σ = _
      simp [eval, ih.2]
    · show (nnf a).eval σ = _
      simp [eval, ih.1]
  | conj a b iha ihb =>
    constructor
    · simp [nnf, eval, iha.1, ihb.1]
    · simp [nnfNeg, eval, iha.2, ihb.2]
  | disj a b iha ihb =>
    constructor
    · simp [nnf, eval, iha.1, ihb.1]
    · simp [nnfNeg, eval, iha.2, ihb.2]
  | eq a b iha ihb =>
    constructor
    · simp [nnf, eval, iha.1, ihb.1]
    · rfl
  | tru => exact ⟨rfl, rfl⟩
  | fls => exact ⟨rfl, rfl⟩
  | boolConst n => exact ⟨rfl, rfl⟩
  | tupleConst a b => exact ⟨rfl, rfl⟩
  | atom n => exact ⟨rfl, rfl⟩
  | impl a b iha ihb => exact ⟨rfl, rfl⟩
  | iff2 a b iha ihb => exact ⟨rfl, rfl⟩
  | xor2 a b iha ihb => exact ⟨rfl, rfl⟩
  | ite3 c a b ihc iha ihb => exact ⟨rfl, rfl⟩

theorem ba_posLit_id : ∀ e : Expr, isPosBoolLit e = true → ba e = e := by
  intro e h
  cases e <;> simp [isPosBoolLit] at h <;> rfl

theorem ba_lit_id : ∀ e : Expr, isBoolLit e = true → ba e = e := by
  intro e h
  rcases Bool.or_eq_true_iff.mp h with hp | hn
  · exact ba_posLit_id e hp
  · cases e <;> simp [isNegBoolLit] at hn
    case neg a => simp [ba, hn, ba_posLit_id a hn]

theorem ba_sound (σ : Expr → Bool) :
    ∀ e : Expr, e.eval σ = true → (ba e).eval σ = true := by
  intro e
  induction e with
  | tru => intro h; exact h
  | fls => intro h; exact h
  | boolConst n => intro h; exact h
  | tupleConst a b => intro h; exact h
  | atom n => intro _; rfl
  | neg a ih =>
    intro h
    by_cases hp : isPosBoolLit a = true
    · simpa [ba, hp, ba_posLit_id a hp] using h
    · simp [ba, hp, eval]
  | conj a b iha ihb =>
    intro h
    simp only [eval, Bool.and_eq_true] at h
    simp [ba, eval, iha h.1, ihb h.2]
  | disj a b iha ihb =>
    intro h
    simp only [eval, Bool.or_eq_true_iff] at h
    rcases h with h | h
    · simp [ba, eval, iha h]
    · simp [ba, eval, ihb h]
  | impl a b iha ihb => intro _; rfl
  | iff2 a b iha ihb => intro _; rfl
  | xor2 a b iha ihb => intro _; rfl
  | ite3 c a b ihc iha ihb => intro _; rfl
  | eq a b iha ihb =>
    intro h
    by_cases hl : (isBoolLit a && isBoolLit b) = true
    · simp only [Bool.and_eq_true] at hl
      simpa [ba, hl.1, hl.2, ba_lit_id a hl.1, ba_lit_id b hl.2] using h
    · simp [ba, hl, eval]

theorem isSkeleton_ba : ∀ e : Expr, isSkeleton (ba e) = true := by
  intro e
  induction e with
  | tru => rfl
  | fls => rfl
  | boolConst n => rfl
  | tupleConst a b => rfl
  | atom n => rfl
  | neg a ih =>
    by_cases hp : isPosBoolLit a = true
    · simp [ba, hp, ba_posLit_id a hp, isSkeleton]
    · simp [ba, hp]; rfl
  | conj a b iha ihb => simp [ba, isSkeleton, iha, ihb]
  | disj a b iha ihb => simp [ba, isSkeleton, iha, ihb]
  | impl a b iha ihb => rfl
  | iff2 a b iha ihb => rfl
  | xor2 a b iha ihb => rfl
  | ite3 c a b ihc iha ihb => rfl
  | eq a b iha ihb =>
    by_cases hl : (isBoolLit a && isBoolLit b) = true
    · simp only [Bool.and_eq_true] at hl
      simp [ba, hl.1, hl.2, ba_lit_id a hl.1, ba_lit_id b hl.2, isSkeleton]
    · simp [ba, hl]; rfl

theorem posLit_fixed :
    ∀ e : Expr, isPosBoolLit e = true →
      preNNF e = some e ∧ nnf e = e ∧ nnfNeg e = Expr.neg e ∧ ba e = e := by
  intro e h
  cases e <;> simp [isPosBoolLit] at h <;> exact ⟨rfl, rfl, rfl, rfl⟩

theorem lit_fixed :
    ∀ e : Expr, isBoolLit e = true →
      preNNF e = some e ∧ nnf e = e ∧ ba e = e := by
  intro e h
  rcases Bool.or_eq_true_iff.mp h with hp | hn
  · obtain ⟨h1, h2, _, h4⟩ := posLit_fixed e hp
    exact ⟨h1, h2, h4⟩
  · cases e <;> simp [isNegBoolLit] at hn
    case neg a =>
      obtain ⟨h1, _, h3, h4⟩ := posLit_fixed a hn
      refine ⟨by simp [preNNF, h1], ?_, by simp [ba, hn, h4]⟩
      show nnfNeg a = _
      rw [h3]

theorem lit_isSkeleton : ∀ e : Expr, isBoolLit e = true → isSkeleton e = true := by
  intro e h
  rcases Bool.or_eq_true_iff.mp h with hp | hn
  · cases e <;> simp [isPosBoolLit] at hp <;> rfl
  · cases e <;> simp [isNegBoolLit] at hn
    case neg a => simpa [isSkeleton] using hn

theorem skeleton_fixed :
    ∀ e : Expr, isSkeleton e = true →
      preNNF e = some e ∧ nnf e = e ∧ ba e = e := by
  intro e
  induction e with
  | tru => intro _; exact ⟨rfl, rfl, rfl⟩
  | fls => intro _; exact ⟨rfl, rfl, rfl⟩
  | boolConst n => intro _; exact ⟨rfl, rfl, rfl⟩
  | tupleConst a b => intro _; exact ⟨rfl, rfl, rfl⟩
  | atom n => intro h; simp [isSkeleton, isPosBoolLit] at h
  | neg a ih =>
    intro h
    simp only [isSkeleton] at h
    obtain ⟨h1, _, h3, h4⟩ := posLit_fixed a h
    refine ⟨by simp [preNNF, h1], ?_, by simp [ba, h, h4]⟩
    show nnfNeg a = _
    rw [h3]
  | conj a b iha ihb =>
    intro h
    simp only [isSkeleton, Bool.and_eq_true] at h
    obtain ⟨a1, a2, a3⟩ := iha h.1
    obtain ⟨b1, b2, b3⟩ := ihb h.2
    exact ⟨by simp [preNNF, a1, b1], by simp [nnf, a2, b2], by simp [ba, a3, b3]⟩
  | disj a b iha ihb =>
    intro h
    simp only [isSkeleton, Bool.and_eq_true] at h
    obtain ⟨a1, a2, a3⟩ := iha h.1
    obtain ⟨b1, b2, b3⟩ := ihb h.2
    exact ⟨by simp [preNNF, a1, b1], by simp [nnf, a2, b2], by simp [ba, a3, b3]⟩
  | impl a b iha ihb => intro h; simp [isSkeleton, isPosBoolLit] at h
  | iff2 a b iha ihb => intro h; simp [isSkeleton, isPosBoolLit] at h
  | xor2 a b iha ihb => intro h; simp [isSkeleton, isPosBoolLit] at h
  | ite3 c a b ihc iha ihb => intro h; simp [isSkeleton, isPosBoolLit] at h
  | eq a b iha ihb =>
    intro h
    simp only [isSkeleton, Bool.and_eq_true] at h
    obtain ⟨a1, a2, a3⟩ := lit_fixed a h.1
    obtain ⟨b1, b2, b3⟩ := lit_fixed b h.2
    exact ⟨by simp [preNNF, a1, b1], by simp [nnf, a2, b2],
      by simp [ba, h.1, h.2, a3, b3]⟩

theorem bool_abstraction_sound_one (σ : Expr → Bool) (e : Expr)
    (hx : e.hasXOR = false) (hm : e.eval σ = true) :
    ∃ y, bool_abstraction e = some y ∧ y.eval σ = true := by
  obtain ⟨e', he'⟩ := preNNF_isSome e hx
  refine ⟨ba (nnf e'), by simp [bool_abstraction, he'], ?_⟩
  apply ba_sound
  rw [(nnf_eval σ e').1, preNNF_eval σ e e' he']
  exact hm

theorem mapM_abstraction_sound (σ : Expr → Bool) :
    ∀ side : List Expr, (∀ e ∈ side, e.hasXOR = false) →
      (∀ e ∈ side, e.eval σ = true) →
      ∃ l, abstractAll side = some l ∧ ∀ y ∈ l, y.eval σ = true := by
  intro side
  induction side with
  | nil => exact fun _ _ => ⟨[], rfl, by simp⟩
  | cons e rest ih =>
    intro hx hm
    obtain ⟨y, hy, hey⟩ :=
      bool_abstraction_sound_one σ e (hx e (by simp)) (hm e (by simp))
    obtain ⟨l, hl, hsl⟩ :=
      ih (fun a ha => hx a (by simp [ha])) (fun a ha => hm a (by simp [ha]))
    refine ⟨y :: l, by simp [abstractAll, hy, hl], ?_⟩
    intro z hz
    rcases List.mem_cons.mp hz with h | h
    · exact h ▸ hey
    · exact hsl z h

theorem mapM_abstraction_mem :
    ∀ side l : List Expr, abstractAll side = some l →
      ∀ y ∈ l, ∃ x ∈ side, bool_abstraction x = some y := by
  intro side
  induction side with
  | nil =>
    intro l h y hy
    simp only [abstractAll, Option.some.injEq] at h
    subst h
    simp at hy
  | cons e rest ih =>
    intro l h y hy
    cases he : bool_abstraction e with
    | none => simp [abstractAll, he] at h
    | some z =>
      cases hr : abstractAll rest with
      | none => simp [abstractAll, he, hr] at h
      | some l' =>
        simp only [abstractAll, he, hr, Option.some.injEq] at h
        subst h
        rcases List.mem_cons.mp hy with h | h
        · exact ⟨e, by simp, h ▸ he⟩
        · obtain ⟨x, hx1, hx2⟩ := ih l' hr y h
          exact ⟨x, by simp [hx1], hx2⟩

theorem mapM_abstraction_none :
    ∀ side : List Expr, ∀ e ∈ side, bool_abstraction e = none →
      abstractAll side = none := by
  intro side
  induction side with
  | nil => intro e he; simp at he
  | cons a rest ih =>
    intro e he hnone
    rcases List.mem_cons.mp he with h | h
    · subst h
      simp [abstractAll, hnone]
    · cases ha : bool_abstraction a with
      | none => simp [abstractAll, ha]
      | some z => simp [abstractAll, ha, ih e h hnone]

/-! ### C1: abstraction soundness -/

/-- C1.  Abstraction soundness: for a sequence of clauses `side` with no
XOR operator, the abstraction `bool_abstraction(side, abs_side)` succeeds,
and every assignment satisfying every clause of `side` also satisfies
every clause of the produced `abs_side` (the abstraction over-approximates
the conjunction). -/
theorem bool_abstraction_sound (σ : Expr → Bool) (side : List Expr)
    (hx : ∀ e ∈ side, e.hasXOR = false)
    (hm : ∀ e ∈ side, e.eval σ = true) :
    ∃ abs, bool_abstraction_list side = some abs ∧ ∀ e ∈ abs, e.eval σ = true := by
  obtain ⟨l, hl, hsl⟩ := mapM_abstraction_sound σ side hx hm
  refine ⟨l.filter (fun e => !isTrueE e), by simp [bool_abstraction_list, hl], ?_⟩
  intro e he
  exact hsl e (List.mem_of_mem_filter he)

/-- Witness for C1 at a concrete input. -/
theorem bool_abstraction_sound_witness :
    ∃ abs, bool_abstraction_list [Expr.boolConst 0] = some abs ∧
      ∀ e ∈ abs, e.eval (fun _ => true) = true :=
  bool_abstraction_sound (fun _ => true) [Expr.boolConst 0]
    (by decide) (by decide)

/-! ### C5: skeleton extraction -/

/-- C5.  Skeleton extraction: every clause of the produced abstraction is
a Boolean skeleton (Boolean literals and negations of positive literals
kept, `AND`/`OR` and equalities of Boolean literals recursed into,
everything else replaced by `true`); clauses that are literally `true`
are dropped, and the remaining clauses keep the relative order of their
source clauses in `m_side` (the output is the in-order filter of the
per-clause rewrites).  Boolean literals themselves are kept unchanged by
the rewrite. -/
theorem skeleton_extraction (side abs : List Expr)
    (h : bool_abstraction_list side = some abs) :
    (∀ e ∈ abs, isTrueE e = false ∧ isSkeleton e = true)
    ∧ (∃ l, abstractAll side = some l ∧
        abs = l.filter (fun e => !isTrueE e) ∧ abs.Sublist l)
    ∧ (∀ e : Expr, isBoolLit e = true → ba e = e) := by
  cases hl : abstractAll side with
  | none => simp [bool_abstraction_list, hl] at h
  | some l =>
    simp only [bool_abstraction_list, hl, Option.some.injEq] at h
    subst h
    refine ⟨?_, ⟨l, rfl, rfl, List.filter_sublist l⟩, ba_lit_id⟩
    intro e he
    have hmem := List.mem_of_mem_filter he
    have hcond := List.of_mem_filter he
    constructor
    · simpa using hcond
    · obtain ⟨x, _, hx2⟩ := mapM_abstraction_mem side l hl e hmem
      cases hp : preNNF x with
      | none => simp [bool_abstraction, hp] at hx2
      | some x' =>
        simp only [bool_abstraction, hp, Option.some.injEq] at hx2
        subst hx2
        exact isSkeleton_ba (nnf x')

/-- Witness for C5 at a concrete input: `[p, atom]` abstracts to `[p]`,
whose only clause is a skeleton and not the literal `true`. -/
theorem skeleton_extraction_witness :
    isTrueE (Expr.boolConst 0) = false ∧ isSkeleton (Expr.boolConst 0) = true :=
  (skeleton_extraction [Expr.boolConst 0, Expr.atom 1] [Expr.boolConst 0]
    (by decide)).1 (Expr.boolConst 0) (by decide)

/-! ### C6: XOR rejection -/

/-- C6.  XOR rejection: a formula containing an `XOR` operator makes the
pre-NNF pass hit `assert(false && "TODO")`, i.e. the engine aborts
(modelled as `none`): no abstraction is produced for the clause nor for
any clause sequence containing it. -/
theorem xor_aborts (side : List Expr) (e : Expr) (he : e ∈ side)
    (hx : e.hasXOR = true) :
    bool_abstraction e = none ∧ bool_abstraction_list side = none := by
  have h1 : bool_abstraction e = none := by
    simp [bool_abstraction, hasXOR_preNNF_none e hx]
  refine ⟨h1, ?_⟩
  simp [bool_abstraction_list, mapM_abstraction_none side e he h1]

/-- Witness for C6 at a concrete input. -/
theorem xor_aborts_witness :
    bool_abstraction (Expr.xor2 Expr.tru Expr.tru) = none ∧
      bool_abstraction_list [Expr.xor2 Expr.tru Expr.tru] = none :=
  xor_aborts [Expr.xor2 Expr.tru Expr.tru] (Expr.xor2 Expr.tru Expr.tru)
    (by decide) (by decide)

/-! ### C9: idempotence -/

/-- C9.  Idempotence: on XOR-free input the Boolean abstraction is
idempotent (`bool_abstraction(bool_abstraction(x)) = bool_abstraction(x)`),
and Boolean literals are fixed points of the abstraction. -/
theorem bool_abstraction_idempotent :
    (∀ x y : Expr, x.hasXOR = false → bool_abstraction x = some y →
      bool_abstraction y = some y)
    ∧ (∀ l : Expr, isBoolLit l = true → bool_abstraction l = some l) := by
  constructor
  · intro x y _ h
    cases hp : preNNF x with
    | none => simp [bool_abstraction, hp] at h
    | some x' =>
      simp only [bool_abstraction, hp, Option.some.injEq] at h
      subst h
      obtain ⟨h1, h2, h3⟩ := skeleton_fixed _ (isSkeleton_ba (nnf x'))
      simp [bool_abstraction, h1, h2, h3]
  · intro l hl
    obtain ⟨h1, h2, h3⟩ := skeleton_fixed l (lit_isSkeleton l hl)
    simp [bool_abstraction, h1, h2, h3]

/-- Witness for C9 at a concrete input: the abstraction of
`p ∧ atom` is `p ∧ true`, itself a fixed point. -/
theorem bool_abstraction_idempotent_witness :
    bool_abstraction (Expr.conj (Expr.boolConst 0) Expr.tru) =
      some (Expr.conj (Expr.boolConst 0) Expr.tru) :=
  bool_abstraction_idempotent.1
    (Expr.conj (Expr.boolConst 0) (Expr.atom 3))
    (Expr.conj (Expr.boolConst 0) Expr.tru)
    (by decide) (by decide)

/-! ### C4: edge predicate construction -/

/-- C4.  Edge predicates in the AI-based refiner: an edge `(src,dst)` is
classified critical exactly when `src` has a successor different from
`dst` and `dst` has a predecessor different from `src`; for an assume on
the edge and for a phi-node assignment the active set receives `bp(src)`
and the edge predicate, which is the fresh tuple-named Boolean constant
over `(bp(src), bp(dst))` on a critical edge and the conjunction
`bp(src) ∧ bp(dst)` otherwise. -/
theorem edge_predicate_construction (g : CFG) (bp : Nat → Expr) (src dst : Nat) :
    (isCriticalEdge g src dst = true ↔
      ((∃ s ∈ g.succs src, s ≠ dst) ∧ (∃ p ∈ g.preds dst, p ≠ src)))
    ∧ (∀ st ∈ [Stmt.assumeE src dst, Stmt.assignPhi src dst],
        ∃ l, stmtActiveLits g bp st = some l ∧ bp src ∈ l ∧ edgeExpr g bp src dst ∈ l)
    ∧ (isCriticalEdge g src dst = true →
        edgeExpr g bp src dst = Expr.tupleConst (bp src) (bp dst))
    ∧ (isCriticalEdge g src dst = false →
        edgeExpr g bp src dst = Expr.conj (bp src) (bp dst))
    ∧ isPosBoolLit (Expr.tupleConst (bp src) (bp dst)) = true := by
  refine ⟨?_, ?_, ?_, ?_, rfl⟩
  · simp [isCriticalEdge, List.any_eq_true, bne_iff_ne]
  · intro st hst
    rcases List.mem_cons.mp hst with h | h
    · subst h
      exact ⟨[bp src, edgeExpr g bp src dst], rfl, by simp, by simp⟩
    · rcases List.mem_cons.mp h with h | h
      · subst h
        exact ⟨[bp src, edgeExpr g bp src dst], rfl, by simp, by simp⟩
      · simp at h
  · intro h; simp [edgeExpr, h]
  · intro h; simp [edgeExpr, h]

/-- Witness for C4 at a concrete CFG: the edge `(0,1)` of `cfgW` is
critical and gets the fresh tuple predicate. -/
theorem edge_predicate_construction_witness :
    edgeExpr cfgW Expr.boolConst 0 1 =
      Expr.tupleConst (Expr.boolConst 0) (Expr.boolConst 1) :=
  (edge_predicate_construction cfgW Expr.boolConst 0 1).2.2.1 (by decide)

/-! ### C2, C8, C10: the enumeration loop and blocking clauses -/

/-- C2.  Non-progress detection and monotone progress: in an iteration
whose SMT refinement reports UNSAT, the blocking clause is asserted into
the primary solver and inserted into the blocking set; if it was already
present the loop terminates returning UNKNOWN, and otherwise the
iteration continues and the blocking set grows by exactly one. -/
theorem blocking_clause_progress (primary : List Expr → Outcome)
    (ai : Nat → Bool × List Expr) (smtRefine : Nat → Outcome × List Expr)
    (s : LoopState) (lits : List Expr)
    (h1 : primary s.asserted = .osat)
    (h2 : smtRefine (s.iters + 1) = (.ounsat, lits)) :
    (add_blocking_clauses { s with iters := s.iters + 1 } lits).1.asserted
        = s.asserted ++ [blockingClause lits]
    ∧ blockingClause lits ∈
        (add_blocking_clauses { s with iters := s.iters + 1 } lits).1.blocking
    ∧ (blockingClause lits ∈ s.blocking →
        solveStep false primary ai smtRefine s =
          .terminated .ounknown (add_blocking_clauses { s with iters := s.iters + 1 } lits).1)
    ∧ (blockingClause lits ∉ s.blocking →
        solveStep false primary ai smtRefine s =
          .continued (add_blocking_clauses { s with iters := s.iters + 1 } lits).1
        ∧ (add_blocking_clauses { s with iters := s.iters + 1 } lits).1.blocking.card
            = s.blocking.card + 1) := by
  refine ⟨rfl, by simp [add_blocking_clauses], ?_, ?_⟩
  · intro hdup
    simp [solveStep, h1, h2, add_blocking_clauses, hdup]
  · intro hnew
    constructor
    · simp [solveStep, h1, h2, add_blocking_clauses, hnew]
    · simp [add_blocking_clauses, Finset.card_insert_of_not_mem hnew]

/-- Witness for C2 at a concrete state and oracles. -/
theorem blocking_clause_progress_witness :
    solveStep false (fun _ => Outcome.osat) (fun _ => (true, ([] : List Expr)))
        (fun _ => (Outcome.ounsat, [Expr.boolConst 0]))
        ⟨[], ∅, 0⟩ =
      .continued (add_blocking_clauses ⟨[], ∅, 1⟩ [Expr.boolConst 0]).1
    ∧ (add_blocking_clauses ⟨[], ∅, 1⟩ [Expr.boolConst 0]).1.blocking.card
        = (∅ : Finset Expr).card + 1 :=
  (blocking_clause_progress (fun _ => Outcome.osat) (fun _ => (true, []))
    (fun _ => (Outcome.ounsat, [Expr.boolConst 0])) ⟨[], ∅, 0⟩
    [Expr.boolConst 0] rfl rfl).2.2.2 (by decide)

/-- C8.  Empty active set on an infeasible path: the refiner reported
UNSAT with no active literals, so `add_blocking_clauses` emits the
clause `false` and asserts it into the primary solver; the loop
continues, and the next abstract solve returns UNSAT, so `solve()`
reports UNSAT for the whole problem.  The hypotheses say that the
primary solver is UNSAT whenever `false` is among its assertions, and
that every clause of the blocking set was asserted (an invariant of all
reachable states). -/
theorem empty_active_set_unsat (primary : List Expr → Outcome)
    (ai : Nat → Bool × List Expr) (smtRefine : Nat → Outcome × List Expr)
    (s : LoopState)
    (hresp : ∀ l, Expr.fls ∈ l → primary l = .ounsat)
    (hinv : ∀ b ∈ s.blocking, b ∈ s.asserted)
    (h1 : primary s.asserted = .osat)
    (h2 : smtRefine (s.iters + 1) = (.ounsat, [])) :
    ∃ s', solveStep false primary ai smtRefine s = .continued s'
      ∧ blockingClause [] = Expr.fls
      ∧ s'.asserted = s.asserted ++ [Expr.fls]
      ∧ solveStep false primary ai smtRefine s' = .terminated .ounsat s' := by
  have hnew : blockingClause [] ∉ s.blocking := by
    intro hmem
    have : Expr.fls ∈ s.asserted := hinv _ hmem
    rw [hresp s.asserted this] at h1
    exact absurd h1 (by simp)
  refine ⟨(add_blocking_clauses { s with iters := s.iters + 1 } []).1, ?_, rfl, rfl, ?_⟩
  · simp [solveStep, h1, h2, add_blocking_clauses, hnew]
  · have hfls : Expr.fls ∈ (add_blocking_clauses { s with iters := s.iters + 1 } []).1.asserted := by
      simp [add_blocking_clauses, blockingClause]
    simp [solveStep, hresp _ hfls]

/-- Witness for C8 at a concrete state and oracles. -/
theorem empty_active_set_unsat_witness :
    ∃ s', solveStep false (fun l => if Expr.fls ∈ l then Outcome.ounsat else Outcome.osat)
        (fun _ => (true, ([] : List Expr))) (fun _ => (Outcome.ounsat, ([] : List Expr)))
        ⟨[Expr.boolConst 0], ∅, 0⟩ = .continued s'
      ∧ blockingClause [] = Expr.fls
      ∧ s'.asserted = [Expr.boolConst 0] ++ [Expr.fls]
      ∧ solveStep false (fun l => if Expr.fls ∈ l then Outcome.ounsat else Outcome.osat)
          (fun _ => (true, ([] : List Expr))) (fun _ => (Outcome.ounsat, ([] : List Expr)))
          s' = .terminated .ounsat s' :=
  empty_active_set_unsat
    (fun l => if Expr.fls ∈ l then Outcome.ounsat else Outcome.osat)
    (fun _ => (true, [])) (fun _ => (Outcome.ounsat, []))
    ⟨[Expr.boolConst 0], ∅, 0⟩
    (fun l h => by simp [h]) (by simp) (by decide) rfl

/-- C10.  On the non-progress error path the primary solver state is not
left unchanged: the duplicate blocking clause is asserted before the
membership test, so when `solve()` aborts with UNKNOWN the clause has
been asserted a second time (it occurs at least twice among the primary
assertions). -/
theorem duplicate_blocking_clause_asserted (primary : List Expr → Outcome)
    (ai : Nat → Bool × List Expr) (smtRefine : Nat → Outcome × List Expr)
    (s : LoopState) (lits : List Expr)
    (hinv : ∀ b ∈ s.blocking, b ∈ s.asserted)
    (h1 : primary s.asserted = .osat)
    (h2 : smtRefine (s.iters + 1) = (.ounsat, lits))
    (hdup : blockingClause lits ∈ s.blocking) :
    ∃ s', solveStep false primary ai smtRefine s = .terminated .ounknown s'
      ∧ s'.asserted = s.asserted ++ [blockingClause lits]
      ∧ 2 ≤ s'.asserted.count (blockingClause lits)
      ∧ s'.asserted ≠ s.asserted := by
  refine ⟨(add_blocking_clauses { s with iters := s.iters + 1 } lits).1, ?_, rfl, ?_, ?_⟩
  · simp [solveStep, h1, h2, add_blocking_clauses, hdup]
  · have hmem : blockingClause lits ∈ s.asserted := hinv _ hdup
    have h1c : 1 ≤ s.asserted.count (blockingClause lits) := List.count_pos_iff.mpr hmem
    have heq : (add_blocking_clauses { s with iters := s.iters + 1 } lits).1.asserted
        = s.asserted ++ [blockingClause lits] := rfl
    have h2c : ([blockingClause lits].count (blockingClause lits)) = 1 := by simp
    rw [heq, List.count_append, h2c]
    omega
  · intro hne
    have heq : (add_blocking_clauses { s with iters := s.iters + 1 } lits).1.asserted
        = s.asserted ++ [blockingClause lits] := rfl
    rw [heq] at hne
    have hlen := congrArg List.length hne
    simp only [List.length_append, List.length_cons, List.length_nil] at hlen
    omega

/-- Witness for C10 at a concrete state and oracles. -/
theorem duplicate_blocking_clause_asserted_witness :
    ∃ s', solveStep false (fun _ => Outcome.osat) (fun _ => (true, ([] : List Expr)))
        (fun _ => (Outcome.ounsat, [Expr.boolConst 0]))
        ⟨[blockingClause [Expr.boolConst 0]], {blockingClause [Expr.boolConst 0]}, 0⟩ =
          .terminated .ounknown s'
      ∧ s'.asserted = [blockingClause [Expr.boolConst 0]] ++ [blockingClause [Expr.boolConst 0]]
      ∧ 2 ≤ s'.asserted.count (blockingClause [Expr.boolConst 0])
      ∧ s'.asserted ≠ [blockingClause [Expr.boolConst 0]] :=
  duplicate_blocking_clause_asserted (fun _ => Outcome.osat)
    (fun _ => (true, [])) (fun _ => (Outcome.ounsat, [Expr.boolConst 0]))
    ⟨[blockingClause [Expr.boolConst 0]], {blockingClause [Expr.boolConst 0]}, 0⟩
    [Expr.boolConst 0] (by simp) rfl rfl (by simp)

/-! ### List and multiset helpers for the MUC proofs -/

theorem perm_cons_eraseIdx {α : Type} :
    ∀ (l : List α) (i : Nat) (h : i < l.length),
      List.Perm (l[i] :: l.eraseIdx i) l := by
  intro l
  induction l with
  | nil => intro i h; simp at h
  | cons x t ih =>
    intro i h
    cases i with
    | zero => simp [List.eraseIdx]
    | succ j =>
      have hj : j < t.length := by simpa using h
      exact (List.Perm.swap x t[j] (t.eraseIdx j)).trans ((ih j hj).cons x)

theorem cons_eraseIdx_coe {α : Type} (l : List α) (i : Nat) (h : i < l.length) :
    l[i] ::ₘ ((l.eraseIdx i : List α) : Multiset α) = (l : Multiset α) :=
  Multiset.coe_eq_coe.mpr (perm_cons_eraseIdx l i h)

theorem eraseIdx_coe_le {α : Type} (l : List α) (i : Nat) (h : i < l.length) :
    ((l.eraseIdx i : List α) : Multiset α) ≤ (l : Multiset α) := by
  rw [← cons_eraseIdx_coe l i h]
  exact Multiset.le_cons_self _ _

theorem set_getLast_dropLast_perm {α : Type} :
    ∀ (l : List α) (i : Nat), i < l.length → ∀ (h0 : l ≠ []),
      List.Perm ((l.set i (l.getLast h0)).dropLast) (l.eraseIdx i) := by
  intro l
  induction l with
  | nil => intro i h; simp at h
  | cons x t ih =>
    intro i h h0
    cases t with
    | nil =>
      cases i with
      | zero => simp [List.eraseIdx]
      | succ j => simp at h
    | cons y u =>
      have hg : (x :: y :: u).getLast h0 = (y :: u).getLast (List.cons_ne_nil y u) :=
        List.getLast_cons (List.cons_ne_nil y u)
      cases i with
      | zero =>
        show (((x :: y :: u).getLast h0 :: y :: u).dropLast).Perm (y :: u)
        rw [hg, List.dropLast_cons_of_ne_nil (List.cons_ne_nil y u)]
        conv_rhs => rw [← List.dropLast_append_getLast (List.cons_ne_nil y u)]
        exact (List.perm_append_singleton _ _).symm
      | succ j =>
        have hj : j < (y :: u).length := by simpa using h
        show ((x :: (y :: u).set j ((x :: y :: u).getLast h0)).dropLast).Perm
          (x :: (y :: u).eraseIdx j)
        rw [hg]
        have hne : (y :: u).set j ((y :: u).getLast (List.cons_ne_nil y u)) ≠ [] := by
          intro hc
          have := congrArg List.length hc
          simp at this
        rw [List.dropLast_cons_of_ne_nil hne]
        exact (ih j hj (List.cons_ne_nil y u)).cons x

theorem erase_eq_eraseIdx_mem {α : Type} [DecidableEq α] (l : List α) (c : α)
    (h : c ∈ l) :
    ∃ j, j < l.length ∧ l.erase c = l.eraseIdx j :=
  ⟨l.indexOf c, List.indexOf_lt_length.mpr h, (List.eraseIdx_indexOf_eq_erase c l).symm⟩

/-! ### Oracle monotonicity helpers -/

theorem sat_unsat_up (sat : List Expr → Bool)
    (hmono : ∀ l1 l2 : List Expr, (∀ x ∈ l1, x ∈ l2) → sat l2 = true → sat l1 = true)
    (l1 l2 : List Expr) (hsub : ∀ x ∈ l1, x ∈ l2) (h : sat l1 = false) :
    sat l2 = false := by
  cases hs : sat l2 with
  | false => rfl
  | true => rw [hmono l1 l2 hsub hs] at h; exact absurd h (by simp)

theorem sat_congr_perm (sat : List Expr → Bool)
    (hmono : ∀ l1 l2 : List Expr, (∀ x ∈ l1, x ∈ l2) → sat l2 = true → sat l1 = true)
    (l1 l2 : List Expr) (hp : List.Perm l1 l2) : sat l1 = sat l2 := by
  cases hs : sat l2 with
  | true => exact hmono l1 l2 (fun x hx => hp.mem_iff.mp hx) hs
  | false => exact sat_unsat_up sat hmono l2 l1 (fun x hx => hp.mem_iff.mpr hx) hs

/-! ### Unfolding equations of the naive MUC loop -/

theorem naiveLoop_terminal (sat : List Expr → Bool) (asm out : List Expr) (i : Nat)
    (h : ¬ i < out.length) : naiveLoop sat asm out i = out := by
  rw [naiveLoop]
  simp [h]

theorem naiveLoop_step_sat (sat : List Expr → Bool) (asm out : List Expr) (i : Nat)
    (h : i < out.length)
    (hs : sat (asm ++ ((out.set i
      (out.getLast (List.ne_nil_of_length_pos (Nat.lt_of_le_of_lt (Nat.zero_le i) h)))).dropLast))
      = true) :
    naiveLoop sat asm out i = naiveLoop sat asm out (i + 1) := by
  rw [naiveLoop]
  simp [h, hs]

theorem naiveLoop_step_unsat (sat : List Expr → Bool) (asm out : List Expr) (i : Nat)
    (h : i < out.length)
    (hs : sat (asm ++ ((out.set i
      (out.getLast (List.ne_nil_of_length_pos (Nat.lt_of_le_of_lt (Nat.zero_le i) h)))).dropLast))
      = false) :
    naiveLoop sat asm out i =
      naiveLoop sat asm ((out.set i
        (out.getLast (List.ne_nil_of_length_pos (Nat.lt_of_le_of_lt (Nat.zero_le i) h)))).dropLast)
        i := by
  rw [naiveLoop]
  simp [h, hs]

theorem tested_eraseIdx_le {α : Type} (out : List α) (i j : Nat)
    (hlt : i < out.length) (hji : j < i) (h0 : out ≠ [])
    (hjt : j < ((out.set i (out.getLast h0)).dropLast).length) :
    ((((out.set i (out.getLast h0)).dropLast).eraseIdx j : List α) : Multiset α)
      ≤ ((out.eraseIdx j : List α) : Multiset α) := by
  have htlen : ((out.set i (out.getLast h0)).dropLast).length = out.length - 1 := by
    simp [List.length_dropLast, List.length_set]
  have hjo : j < out.length := by omega
  have hij : i ≠ j := by omega
  have h1 : ((out.set i (out.getLast h0)).dropLast)[j] = out[j] := by
    rw [List.getElem_dropLast, List.getElem_set_ne hij]
  have hkey : out[i] ::ₘ
      ((((out.set i (out.getLast h0)).dropLast).eraseIdx j : List α) : Multiset α)
      = ((out.eraseIdx j : List α) : Multiset α) := by
    have c1 := cons_eraseIdx_coe ((out.set i (out.getLast h0)).dropLast) j hjt
    have c2 := cons_eraseIdx_coe out i hlt
    have c3 := cons_eraseIdx_coe out j hjo
    have hcoe : (((out.set i (out.getLast h0)).dropLast : List α) : Multiset α)
        = ((out.eraseIdx i : List α) : Multiset α) :=
      Multiset.coe_eq_coe.mpr (set_getLast_dropLast_perm out i hlt h0)
    apply (Multiset.cons_inj_right (out[j])).mp
    calc out[j] ::ₘ out[i] ::ₘ
          ((((out.set i (out.getLast h0)).dropLast).eraseIdx j : List α) : Multiset α)
        = out[i] ::ₘ out[j] ::ₘ
          ((((out.set i (out.getLast h0)).dropLast).eraseIdx j : List α) : Multiset α) :=
          Multiset.cons_swap _ _ _
      _ = out[i] ::ₘ (((out.set i (out.getLast h0)).dropLast : List α) : Multiset α) := by
          rw [← h1, c1]
      _ = (out : Multiset α) := by rw [hcoe, c2]
      _ = out[j] ::ₘ ((out.eraseIdx j : List α) : Multiset α) := c3.symm
  rw [← hkey]
  exact Multiset.le_cons_self _ _

/-- The loop invariant of `naive_muc::run`: starting from a vector whose
conjunction (under the assumptions) is UNSAT, with all positions before
`i` already proved essential, the loop returns a sub-multiset of the
vector that is still UNSAT and from which no single element can be
dropped without becoming SAT. -/
theorem naiveLoop_spec (sat : List Expr → Bool)
    (hmono : ∀ l1 l2 : List Expr, (∀ x ∈ l1, x ∈ l2) → sat l2 = true → sat l1 = true) :
    ∀ (n : Nat) (out : List Expr) (i : Nat) (asm : List Expr),
      2 * out.length - i ≤ n →
      sat (asm ++ out) = false →
      (∀ j, j < i → j < out.length → sat (asm ++ out.eraseIdx j) = true) →
      ((naiveLoop sat asm out i : List Expr) : Multiset Expr) ≤ (out : Multiset Expr)
      ∧ sat (asm ++ naiveLoop sat asm out i) = false
      ∧ ∀ j, j < (naiveLoop sat asm out i).length →
          sat (asm ++ (naiveLoop sat asm out i).eraseIdx j) = true := by
  intro n
  induction n with
  | zero =>
    intro out i asm hn hpre hkept
    have hterm : ¬ i < out.length := by omega
    rw [naiveLoop_terminal sat asm out i hterm]
    exact ⟨le_refl _, hpre, fun j hj => hkept j (by omega) hj⟩
  | succ m ih =>
    intro out i asm hn hpre hkept
    by_cases hlt : i < out.length
    · have h0 : out ≠ [] :=
        List.ne_nil_of_length_pos (Nat.lt_of_le_of_lt (Nat.zero_le i) hlt)
      have htlen : ((out.set i (out.getLast h0)).dropLast).length = out.length - 1 := by
        simp [List.length_dropLast, List.length_set]
      have hFperm : ((out.set i (out.getLast h0)).dropLast).Perm (out.eraseIdx i) :=
        set_getLast_dropLast_perm out i hlt h0
      by_cases hsat : sat (asm ++ (out.set i (out.getLast h0)).dropLast) = true
      · rw [naiveLoop_step_sat sat asm out i hlt hsat]
        apply ih out (i + 1) asm (by omega) hpre
        intro j hj hjo
        rcases Nat.lt_succ_iff_lt_or_eq.mp hj with hj' | hj'
        · exact hkept j hj' hjo
        · subst hj'
          rw [← sat_congr_perm sat hmono _ _ (hFperm.append_left asm)]
          exact hsat
      · have hsat' : sat (asm ++ (out.set i (out.getLast h0)).dropLast) = false := by
          cases hx : sat (asm ++ (out.set i (out.getLast h0)).dropLast) with
          | false => rfl
          | true => exact absurd hx hsat
        rw [naiveLoop_step_unsat sat asm out i hlt hsat']
        have hkept' : ∀ j, j < i → j < ((out.set i (out.getLast h0)).dropLast).length →
            sat (asm ++ ((out.set i (out.getLast h0)).dropLast).eraseIdx j) = true := by
          intro j hji hjt
          refine hmono _ (asm ++ out.eraseIdx j) ?_ (hkept j hji (by omega))
          intro x hx
          rcases List.mem_append.mp hx with hx | hx
          · exact List.mem_append_left _ hx
          · refine List.mem_append_right _ ?_
            have hle := tested_eraseIdx_le out i j hlt hji h0 hjt
            exact Multiset.mem_coe.mp (Multiset.subset_of_le hle (Multiset.mem_coe.mpr hx))
        obtain ⟨ple, punsat, pmin⟩ :=
          ih ((out.set i (out.getLast h0)).dropLast) i asm (by omega) hsat' hkept'
        refine ⟨?_, punsat, pmin⟩
        calc ((naiveLoop sat asm ((out.set i (out.getLast h0)).dropLast) i : List Expr) :
              Multiset Expr)
            ≤ (((out.set i (out.getLast h0)).dropLast : List Expr) : Multiset Expr) := ple
          _ = ((out.eraseIdx i : List Expr) : Multiset Expr) := Multiset.coe_eq_coe.mpr hFperm
          _ ≤ (out : Multiset Expr) := eraseIdx_coe_le out i hlt
    · rw [naiveLoop_terminal sat asm out i hlt]
      exact ⟨le_refl _, hpre, fun j hj => hkept j (by omega) hj⟩

/-- The recursion invariant of `binary_search_muc::run_with_assumptions`:
if the conjunction of `f` under the assumptions is UNSAT, the assumptions
alone are SAT, and every accumulated core element is already among the
assumptions, then the call appends to `core` a minimal unsat core of `f`
relative to the assumptions. -/
theorem binRun_spec (sat : List Expr → Bool)
    (hmono : ∀ l1 l2 : List Expr, (∀ x ∈ l1, x ∈ l2) → sat l2 = true → sat l1 = true) :
    ∀ (n : Nat) (f asm core : List Expr),
      f.length ≤ n →
      sat (asm ++ f) = false →
      sat asm = true →
      (∀ x ∈ core, x ∈ asm) →
      ∃ C, binRun sat f asm core = core ++ C
        ∧ ((C : List Expr) : Multiset Expr) ≤ (f : Multiset Expr)
        ∧ sat (asm ++ C) = false
        ∧ ∀ j, j < C.length → sat (asm ++ C.eraseIdx j) = true := by
  intro n
  induction n with
  | zero =>
    intro f asm core hn hpre hsat _
    have hf : f = [] := List.length_eq_zero.mp (by omega)
    subst hf
    rw [List.append_nil] at hpre
    rw [hpre] at hsat
    exact absurd hsat (by simp)
  | succ m ih =>
    intro f asm core hn hpre hsat hcore
    rw [binRun]
    dsimp only
    by_cases hsize : f.length ≤ threshold
    · rw [if_pos hsize]
      by_cases hf0 : f.length = 0
      · have hf : f = [] := List.length_eq_zero.mp hf0
        subst hf
        rw [List.append_nil] at hpre
        rw [hpre] at hsat
        exact absurd hsat (by simp)
      · rw [if_neg hf0]
        by_cases hf1 : f.length = 1
        · rw [if_pos hf1]
          obtain ⟨x, rfl⟩ := List.length_eq_one.mp hf1
          refine ⟨[x], rfl, le_refl _, hpre, ?_⟩
          intro j hj
          have hj0 : j = 0 := by simpa using hj
          subst hj0
          show sat (asm ++ []) = true
          rw [List.append_nil]
          exact hsat
        · rw [if_neg hf1]
          obtain ⟨ple, punsat, pmin⟩ :=
            naiveLoop_spec sat hmono (2 * f.length) f 0 asm (by omega) hpre
              (fun j hj _ => absurd hj (Nat.not_lt_zero j))
          exact ⟨naive_muc_run sat f asm, rfl, ple, punsat, pmin⟩
    · rw [if_neg hsize]
      have hsize' : 11 ≤ f.length := by
        simp only [threshold] at hsize
        omega
      have hAB : f.take (f.length / 2) ++ f.drop (f.length / 2) = f :=
        List.take_append_drop _ f
      have hAlen : (f.take (f.length / 2)).length = f.length / 2 := by
        simp [List.length_take]
        omega
      have hBlen : (f.drop (f.length / 2)).length = f.length - f.length / 2 := by
        simp [List.length_drop]
      have hAle : ((f.take (f.length / 2) : List Expr) : Multiset Expr) ≤ (f : Multiset Expr) :=
        Multiset.coe_le.mpr (List.take_sublist _ f).subperm
      have hBle : ((f.drop (f.length / 2) : List Expr) : Multiset Expr) ≤ (f : Multiset Expr) :=
        Multiset.coe_le.mpr (List.drop_sublist _ f).subperm
      by_cases hA : sat (asm ++ f.take (f.length / 2)) = false
      · rw [if_pos hA]
        obtain ⟨C, h1, h2, h3, h4⟩ :=
          ih (f.take (f.length / 2)) asm core (by omega) hA hsat hcore
        exact ⟨C, h1, le_trans h2 hAle, h3, h4⟩
      · have hA' : sat (asm ++ f.take (f.length / 2)) = true := by
          revert hA
          cases sat (asm ++ f.take (f.length / 2)) <;> simp
        rw [if_neg hA]
        by_cases hB : sat (asm ++ f.drop (f.length / 2)) = false
        · rw [if_pos hB]
          obtain ⟨C, h1, h2, h3, h4⟩ :=
            ih (f.drop (f.length / 2)) asm core (by omega) hB hsat hcore
          exact ⟨C, h1, le_trans h2 hBle, h3, h4⟩
        · have hB' : sat (asm ++ f.drop (f.length / 2)) = true := by
            revert hB
            cases sat (asm ++ f.drop (f.length / 2)) <;> simp
          rw [if_neg hB]
          -- both halves SAT: minimize A under B, then B under the core
          have hperm1 : (asm ++ f).Perm
              ((asm ++ f.drop (f.length / 2)) ++ f.take (f.length / 2)) := by
            rw [List.append_assoc]
            conv_lhs => rw [← hAB]
            exact List.perm_append_comm.append_left asm
          have hpre1 : sat ((asm ++ f.drop (f.length / 2)) ++ f.take (f.length / 2)) = false := by
            rw [← sat_congr_perm sat hmono _ _ hperm1]
            exact hpre
          have hcore1 : ∀ x ∈ core, x ∈ asm ++ f.drop (f.length / 2) :=
            fun x hx => List.mem_append_left _ (hcore x hx)
          obtain ⟨CA, e1, le1, u1, m1⟩ :=
            ih (f.take (f.length / 2)) (asm ++ f.drop (f.length / 2)) core
              (by omega) hpre1 hB' hcore1
          have hCAsubA : ∀ x ∈ CA, x ∈ f.take (f.length / 2) :=
            fun x hx => Multiset.mem_coe.mp (Multiset.subset_of_le le1 (Multiset.mem_coe.mpr hx))
          have hpre2 : sat ((asm ++ (core ++ CA)) ++ f.drop (f.length / 2)) = false := by
            refine sat_unsat_up sat hmono ((asm ++ f.drop (f.length / 2)) ++ CA) _ ?_ u1
            intro x hx
            rcases List.mem_append.mp hx with hx | hx
            · rcases List.mem_append.mp hx with hx | hx
              · exact List.mem_append_left _ (List.mem_append_left _ hx)
              · exact List.mem_append_right _ hx
            · exact List.mem_append_left _ (List.mem_append_right _ (List.mem_append_right _ hx))
          have hsat2 : sat (asm ++ (core ++ CA)) = true := by
            refine hmono _ (asm ++ f.take (f.length / 2)) ?_ hA'
            intro x hx
            rcases List.mem_append.mp hx with hx | hx
            · exact List.mem_append_left _ hx
            · rcases List.mem_append.mp hx with hx | hx
              · exact List.mem_append_left _ (hcore x hx)
              · exact List.mem_append_right _ (hCAsubA x hx)
          have hcore2 : ∀ x ∈ core ++ CA, x ∈ asm ++ (core ++ CA) :=
            fun x hx => List.mem_append_right _ hx
          obtain ⟨CB, e2, le2, u2, m2⟩ :=
            ih (f.drop (f.length / 2)) (asm ++ (core ++ CA)) (core ++ CA)
              (by omega) hpre2 hsat2 hcore2
          have hCBsubB : ∀ x ∈ CB, x ∈ f.drop (f.length / 2) :=
            fun x hx => Multiset.mem_coe.mp (Multiset.subset_of_le le2 (Multiset.mem_coe.mpr hx))
          refine ⟨CA ++ CB, ?_, ?_, ?_, ?_⟩
          · rw [e1, e2, List.append_assoc]
          · show ((CA ++ CB : List Expr) : Multiset Expr) ≤ (f : Multiset Expr)
            rw [← hAB]
            exact add_le_add le1 le2
          · refine sat_unsat_up sat hmono ((asm ++ (core ++ CA)) ++ CB) _ ?_ u2
            intro x hx
            rcases List.mem_append.mp hx with hx | hx
            · rcases List.mem_append.mp hx with hx | hx
              · exact List.mem_append_left _ hx
              · rcases List.mem_append.mp hx with hx | hx
                · exact List.mem_append_left _ (hcore x hx)
                · exact List.mem_append_right _ (List.mem_append_left _ hx)
            · exact List.mem_append_right _ (List.mem_append_right _ hx)
          · intro j hj
            by_cases hjA : j < CA.length
            · rw [List.eraseIdx_append_of_lt_length hjA]
              refine hmono _ ((asm ++ f.drop (f.length / 2)) ++ CA.eraseIdx j) ?_ (m1 j hjA)
              intro x hx
              rcases List.mem_append.mp hx with hx | hx
              · exact List.mem_append_left _ (List.mem_append_left _ hx)
              · rcases List.mem_append.mp hx with hx | hx
                · exact List.mem_append_right _ hx
                · exact List.mem_append_left _ (List.mem_append_right _ (hCBsubB x hx))
            · have hjB : j - CA.length < CB.length := by
                rw [List.length_append] at hj
                omega
              rw [List.eraseIdx_append_of_length_le (by omega)]
              refine hmono _ ((asm ++ (core ++ CA)) ++ CB.eraseIdx (j - CA.length)) ?_
                (m2 _ hjB)
              intro x hx
              rcases List.mem_append.mp hx with hx | hx
              · exact List.mem_append_left _ (List.mem_append_left _ hx)
              · rcases List.mem_append.mp hx with hx | hx
                · exact List.mem_append_left _ (List.mem_append_right _ (List.mem_append_right _ hx))
                · exact List.mem_append_right _ hx

theorem satBC01_mono : ∀ l1 l2 : List Expr, (∀ x ∈ l1, x ∈ l2) →
    satBC01 l2 = true → satBC01 l1 = true := by
  intro l1 l2 hsub h
  simp only [satBC01, List.any_eq_true, List.all_eq_true] at h ⊢
  obtain ⟨v0, hv0, v1, hv1, hall⟩ := h
  exact ⟨v0, hv0, v1, hv1, fun e he => hall e (hsub e he)⟩

/-! ### C3: MUC minimality -/

/-- C3.  MUC minimality: over any deciding solver oracle that depends
monotonically on the asserted set (every SMT solver does) and for which
the empty context is satisfiable, the cores produced by the naive
strategy and by the binary-search strategy on an unsatisfiable list `f`
are subsets of `f`, are unsatisfiable, and become satisfiable as soon as
any single element is removed. -/
theorem muc_minimal_core (sat : List Expr → Bool)
    (hmono : ∀ l1 l2 : List Expr, (∀ x ∈ l1, x ∈ l2) → sat l2 = true → sat l1 = true)
    (hnil : sat [] = true)
    (f : List Expr) (hunsat : sat f = false) :
    (naive_muc_run sat f [] ⊆ f
      ∧ sat (naive_muc_run sat f []) = false
      ∧ ∀ c ∈ naive_muc_run sat f [], sat ((naive_muc_run sat f []).erase c) = true)
    ∧ (binary_search_muc_run sat f ⊆ f
      ∧ sat (binary_search_muc_run sat f) = false
      ∧ ∀ c ∈ binary_search_muc_run sat f,
          sat ((binary_search_muc_run sat f).erase c) = true) := by
  constructor
  · obtain ⟨ple, punsat, pmin⟩ :=
      naiveLoop_spec sat hmono (2 * f.length) f 0 [] (by omega) hunsat
        (fun j hj _ => absurd hj (Nat.not_lt_zero j))
    refine ⟨?_, punsat, ?_⟩
    · exact fun x hx => Multiset.mem_coe.mp (Multiset.subset_of_le ple (Multiset.mem_coe.mpr hx))
    · intro c hc
      obtain ⟨j, hj, hje⟩ := erase_eq_eraseIdx_mem _ c hc
      rw [hje]
      exact pmin j hj
  · obtain ⟨C, e, le, u, mn⟩ :=
      binRun_spec sat hmono f.length f [] [] (le_refl _) hunsat hnil (by simp)
    have he : binary_search_muc_run sat f = C := by
      rw [binary_search_muc_run, e]
      rfl
    rw [he]
    refine ⟨?_, u, ?_⟩
    · exact fun x hx => Multiset.mem_coe.mp (Multiset.subset_of_le le (Multiset.mem_coe.mpr hx))
    · intro c hc
      obtain ⟨j, hj, hje⟩ := erase_eq_eraseIdx_mem _ c hc
      rw [hje]
      exact mn j hj

/-- Witness for C3 at a concrete solver and input. -/
theorem muc_minimal_core_witness :
    naive_muc_run satBC01 [clauseW] [] ⊆ [clauseW]
    ∧ satBC01 (naive_muc_run satBC01 [clauseW] []) = false
    ∧ ∀ c ∈ naive_muc_run satBC01 [clauseW] [],
        satBC01 ((naive_muc_run satBC01 [clauseW] []).erase c) = true :=
  (muc_minimal_core satBC01 satBC01_mono (by decide) [clauseW] (by decide)).1

/-! ### C7: MUC order preservation -/

/-- Counterexample to C7 as stated: with the deciding monotone solver
`satBC01` and the unsatisfiable input `[p, q, ¬q]`, the naive MUC
strategy returns `[¬q, q]` — the surviving clauses in the opposite of
their order in the input (the swap-with-back step reorders). -/
theorem naive_muc_order_counterexample :
    satBC01 [Expr.boolConst 0, Expr.boolConst 1, Expr.neg (Expr.boolConst 1)] = false
    ∧ naive_muc_run satBC01
        [Expr.boolConst 0, Expr.boolConst 1, Expr.neg (Expr.boolConst 1)] []
        = [Expr.neg (Expr.boolConst 1), Expr.boolConst 1]
    ∧ ¬ List.Sublist
        (naive_muc_run satBC01
          [Expr.boolConst 0, Expr.boolConst 1, Expr.neg (Expr.boolConst 1)] [])
        [Expr.boolConst 0, Expr.boolConst 1, Expr.neg (Expr.boolConst 1)] := by
  have s1 : naive_muc_run satBC01
      [Expr.boolConst 0, Expr.boolConst 1, Expr.neg (Expr.boolConst 1)] []
      = [Expr.neg (Expr.boolConst 1), Expr.boolConst 1] := by
    show naiveLoop satBC01 []
      [Expr.boolConst 0, Expr.boolConst 1, Expr.neg (Expr.boolConst 1)] 0
      = [Expr.neg (Expr.boolConst 1), Expr.boolConst 1]
    rw [naiveLoop_step_unsat satBC01 []
      [Expr.boolConst 0, Expr.boolConst 1, Expr.neg (Expr.boolConst 1)] 0
      (by decide) (by decide)]
    show naiveLoop satBC01 [] [Expr.neg (Expr.boolConst 1), Expr.boolConst 1] 0
      = [Expr.neg (Expr.boolConst 1), Expr.boolConst 1]
    rw [naiveLoop_step_sat satBC01 []
      [Expr.neg (Expr.boolConst 1), Expr.boolConst 1] 0 (by decide) (by decide)]
    rw [naiveLoop_step_sat satBC01 []
      [Expr.neg (Expr.boolConst 1), Expr.boolConst 1] 1 (by decide) (by decide)]
    rw [naiveLoop_terminal satBC01 []
      [Expr.neg (Expr.boolConst 1), Expr.boolConst 1] 2 (by decide)]
  refine ⟨by decide, s1, ?_⟩
  rw [s1]
  decide

/-- C7 (amended).  The core returned by the naive MUC strategy is a
sub-permutation of the input `F`: each surviving clause comes from `F`
(with multiplicity), but the swap-with-back step of the loop may reorder
the surviving clauses, so the relative order of `F` is in general not
preserved. -/
theorem naive_muc_subperm (sat : List Expr → Bool)
    (hmono : ∀ l1 l2 : List Expr, (∀ x ∈ l1, x ∈ l2) → sat l2 = true → sat l1 = true)
    (f asm : List Expr) (hunsat : sat (asm ++ f) = false) :
    (naive_muc_run sat f asm).Subperm f := by
  obtain ⟨ple, _, _⟩ :=
    naiveLoop_spec sat hmono (2 * f.length) f 0 asm (by omega) hunsat
      (fun j hj _ => absurd hj (Nat.not_lt_zero j))
  exact Multiset.coe_le.mp ple

/-- Witness for the amended C7 at a concrete solver and input. -/
theorem naive_muc_subperm_witness :
    (naive_muc_run satBC01
      [Expr.boolConst 0, Expr.boolConst 1, Expr.neg (Expr.boolConst 1)] []).Subperm
      [Expr.boolConst 0, Expr.boolConst 1, Expr.neg (Expr.boolConst 1)] :=
  naive_muc_subperm satBC01 satBC01_mono
    [Expr.boolConst 0, Expr.boolConst 1, Expr.neg (Expr.boolConst 1)] [] (by decide)

end PathBmc
